import Mathlib

/-!
Shallow embedding of `wordle.cpp`, a Wordle solving aid.

Words are modelled as `List Char` (the C++ code manipulates `std::string`
values holding 5 lowercase ASCII letters).  Machine integers in the source
(`int` scores, `uint8_t` / `int` positions) stay well inside their ranges on
the program's data, so they are modelled as `Int` / `Nat`.
-/

/-- Word is the type of candidate words: the character sequence of a C++
string. -/
abbrev Word := List Char

/-- isspace models the C locale function `isspace` on ASCII data:
space, tab, newline, vertical tab, form feed, carriage return. -/
def isspace (c : Char) : Bool :=
  c == ' ' || c == '\t' || c == '\n' || c == '\x0b' || c == '\x0c' || c == '\r'

/-- isalpha models the C locale function `isalpha` on ASCII data:
codes 65..90 (uppercase) and 97..122 (lowercase). -/
def isalpha (c : Char) : Bool :=
  (65 ≤ c.toNat && c.toNat ≤ 90) || (97 ≤ c.toNat && c.toNat ≤ 122)

/-- tolower models the C locale function `tolower` on ASCII data: uppercase
letters move down by 32 to the corresponding lowercase letter, everything
else is unchanged. -/
def tolower (c : Char) : Char :=
  if 65 ≤ c.toNat && c.toNat ≤ 90 then Char.ofNat (c.toNat + 32) else c

/-- trimRight models the first loop of `validate` (wordle.cpp:69-71): pop
trailing whitespace characters off the back of the string. -/
def trimRight (w : List Char) : List Char :=
  (w.reverse.dropWhile isspace).reverse

/-- trimLeft models the second loop of `validate` (wordle.cpp:72-74): erase
leading whitespace characters from the front of the string. -/
def trimLeft (w : List Char) : List Char :=
  w.dropWhile isspace

/-- lowerUntilFail models the third loop of `validate` (wordle.cpp:78-83):
walk the string in place; on a non-alphabetic character stop and report
failure, leaving that character and the rest untouched; otherwise lowercase
each character.  The returned pair is (return value, final string state). -/
def lowerUntilFail : List Char → Bool × List Char
  | [] => (true, [])
  | c :: rest =>
      if isalpha c then
        let r := lowerUntilFail rest
        (r.1, tolower c :: r.2)
      else (false, c :: rest)

/-- validate models `validate` (wordle.cpp:68-85).  The C++ function takes
its argument by mutable reference; the embedding returns the pair
(return value, final state of the caller's string). -/
def validate (w : List Char) : Bool × List Char :=
  let t := trimLeft (trimRight w)
  if t.length = 5 then lowerUntilFail t else (false, t)

/-- constraint_kind models the enum `constraint_kind` (wordle.cpp:20). -/
inductive constraint_kind
  | not_present
  | present
  | perfect
deriving DecidableEq

/-- constraint models the struct `constraint` (wordle.cpp:25-30).
`position` is `std::optional<std::uint8_t>` and `exclude_positions` is
`std::vector<int>`; all positions occurring in the program are small and
non-negative, so both are modelled over `Nat`. -/
structure constraint where
  kind : constraint_kind
  letter : Char
  position : Option Nat := none
  exclude_positions : List Nat := []
deriving DecidableEq

/-- letter_scores models the table `letter_scores` (wordle.cpp:43-60):
frequency weight together with the group of letters carrying that weight. -/
def letter_scores : List (Int × List Char) :=
  [(12000, ['e']),
   (9000, ['t']),
   (8000, ['a', 'i', 'n', 'o', 's']),
   (6400, ['h']),
   (6200, ['r']),
   (4400, ['d']),
   (4000, ['l']),
   (3400, ['u']),
   (3000, ['c', 'm']),
   (2500, ['f']),
   (2000, ['w', 'y']),
   (1700, ['g', 'p']),
   (1600, ['b']),
   (1200, ['v']),
   (800, ['k']),
   (500, ['q']),
   (400, ['j', 'x']),
   (200, ['z'])]

/-- weight models the inner loop of `score` (wordle.cpp:162-168): the weight
of the first group whose letter set contains the character (the groups are
disjoint), and 0 when no group contains it. -/
def weight (c : Char) : Int :=
  match letter_scores.find? (fun p => p.2.contains c) with
  | some p => p.1
  | none => 0

/-- dedupAdj models `std::unique` followed by `erase` (wordle.cpp:160 and
wordle.cpp:265-266): collapse each run of adjacent equal elements to one. -/
def dedupAdj {α : Type} [DecidableEq α] : List α → List α
  | [] => []
  | [a] => [a]
  | a :: b :: rest => if a = b then dedupAdj (b :: rest) else a :: dedupAdj (b :: rest)

/-- score models `score` (wordle.cpp:157-171): sort the characters of a copy
of the word, drop adjacent duplicates, and sum the group weights of the
surviving characters.  `std::ranges::sort` on characters is modelled by
`List.insertionSort`: for a total order, sorted permutations of a multiset
coincide, so the choice of sorting algorithm is observationally irrelevant
here. -/
def score (w : Word) : Int :=
  (dedupAdj (List.insertionSort (fun a b : Char => a ≤ b) w)).foldl
    (fun v c => v + weight c) 0

/-- constraintFails models one iteration of the constraint switch inside
`solve` (wordle.cpp:186-209): whether the given constraint sets the `fail`
flag for the given word.  Character accesses `word[i]` are modelled with
`List.getD`; this is faithful exactly when the accessed index is in range
(see `cwf`), which the program's own constraint data satisfies; the checked
variant `evalConstraintChecked` makes the out-of-range case explicit. -/
def constraintFails (w : Word) (c : constraint) : Bool :=
  match c.kind with
  | .not_present => w.contains c.letter
  | .present =>
      if !(w.contains c.letter) then true
      else c.exclude_positions.any (fun i => w.getD i ' ' == c.letter)
  | .perfect => !(w.getD (c.position.getD 0) ' ' == c.letter)

/-- solve models `solve` (wordle.cpp:181-218): keep exactly the words for
which no constraint sets the `fail` flag.  The C++ loop or-accumulates
`fail` over all constraints without breaking, which is the conjunction of
the individual checks. -/
def solve (cs : List constraint) (words : List Word) : List Word :=
  words.filter (fun w => !(cs.any (fun c => constraintFails w c)))

/-- cwf states the spec's well-formedness invariant on a constraint for
words of length `len`: a perfect constraint carries an in-range position,
and every excluded position is in range.  Under this invariant the C++
accesses `word[*position]` and `word[exclude_pos]` are in bounds. -/
def cwf (len : Nat) (c : constraint) : Prop :=
  (c.kind = .perfect → ∃ p, c.position = some p ∧ p < len) ∧
  (∀ i ∈ c.exclude_positions, i < len)

/-- SatisfiedSpec is the specification-side satisfaction predicate, written
from the spec's words: ABSENT(L) holds iff the word does not contain L;
PRESENT_ELSEWHERE(L, excluded) holds iff the word contains L and word[i]
differs from L at every excluded index i; EXACT(L, pos) holds iff word[pos]
equals L.  Indexing is via `List.getD`, which agrees with word[i] on the
in-range indices guaranteed by the `cwf` invariant. -/
def SatisfiedSpec (w : Word) (c : constraint) : Prop :=
  match c.kind with
  | .not_present => c.letter ∉ w
  | .present => c.letter ∈ w ∧ ∀ i ∈ c.exclude_positions, w.getD i ' ' ≠ c.letter
  | .perfect => ∃ p, c.position = some p ∧ w.getD p ' ' = c.letter

/-- evalConstraintChecked is the bounds-checked reading of the constraint
switch in `solve` (wordle.cpp:186-209): it returns `some b` when the C++
evaluation touches only in-range indices and yields `b = ¬fail`, and `none`
when the C++ evaluation would dereference an empty optional or index the
word out of range (undefined behavior in the source). -/
def evalConstraintChecked (w : Word) (c : constraint) : Option Bool :=
  match c.kind with
  | .not_present => some (!(w.contains c.letter))
  | .present =>
      if !(w.contains c.letter) then some false
      else if c.exclude_positions.all (fun i => i < w.length) then
        some (!(c.exclude_positions.any (fun i => w.getD i ' ' == c.letter)))
      else none
  | .perfect =>
      match c.position with
      | none => none
      | some p => if p < w.length then some (w.getD p ' ' == c.letter) else none

/-- prune_dictionary models the erase loop of `main` (wordle.cpp:257-263):
keep only the legal words that are members of the spelling dictionary (the
`unordered_set` is a membership set over the dictionary word list). -/
def prune_dictionary (legal : List Word) (dict : List Word) : List Word :=
  legal.filter (fun w => dict.contains w)

/-- lexLt models `operator<` on C++ strings: strict lexicographic order on
the character sequences. -/
def lexLt : List Char → List Char → Bool
  | [], [] => false
  | [], _ :: _ => true
  | _ :: _, [] => false
  | a :: as, b :: bs => if a < b then true else if b < a then false else lexLt as bs

/-- lexLe is the reflexive companion of `lexLt` in comparator form: the
sortedness predicate produced by sorting with comparator `lexLt` is exactly
adjacent `lexLe`. -/
def lexLe (a b : Word) : Prop := lexLt b a = false

instance : DecidableRel lexLe := fun a b =>
  inferInstanceAs (Decidable (lexLt b a = false))

/-- sortWords models `std::ranges::sort(legal_words)` (wordle.cpp:264):
lexicographic sort of the word list.  As with `score`, sorting by a total
order determines the output uniquely, so `List.insertionSort` is an exact
model. -/
def sortWords (l : List Word) : List Word :=
  List.insertionSort lexLe l

/-- filter_pipeline models the candidate pipeline of `main`
(wordle.cpp:252-266): constraint solving, dictionary pruning, lexicographic
sort, and adjacent deduplication. -/
def filter_pipeline (words : List Word) (cs : List constraint) (dict : List Word) :
    List Word :=
  dedupAdj (sortWords (prune_dictionary (solve cs words) dict))

/-- bestOp models the binary operation passed to `std::reduce`
(wordle.cpp:300-302): keep the first argument when its score is strictly
larger, else the second. -/
def bestOp (a b : Word) : Word :=
  if score b < score a then a else b

/-- best_word models the `best_word` computation (wordle.cpp:298-302):
`std::reduce` over the whole corpus with `words.front()` as initial value,
modelled as the sequential left accumulation over the tail (the operation is
associative, so every order-preserving grouping yields this value). -/
def best_word : List Word → Word
  | [] => []
  | w :: ws => ws.foldl bestOp w

/-- RankedOutput models the postcondition of `std::ranges::sort` with the
letter-frequency comparator of `main` (wordle.cpp:278-281): the result is a
permutation of the input that is sorted for the comparator
`score r < score l` (the map `letter_freq_words` holds exactly `score` of
each word).  `std::ranges::sort` guarantees nothing further — in particular
not stability — so the sort is modelled as this relation rather than as a
function. -/
def RankedOutput (inp out : List Word) : Prop :=
  out.Perm inp ∧ out.Pairwise (fun a b => score b ≤ score a)

/-! ### Character-level facts about the modelled C locale functions -/

theorem toNat_ofNat_small {n : Nat} (h : n < 55296) : (Char.ofNat n).toNat = n := by
  unfold Char.ofNat
  rw [dif_pos (Or.inl h)]
  simp [Char.ofNatAux, Char.toNat, UInt32.toNat, UInt32.ofNatTruncate, UInt32.ofNat]

theorem isalpha_iff {c : Char} :
    isalpha c = true ↔ (65 ≤ c.toNat ∧ c.toNat ≤ 90) ∨ (97 ≤ c.toNat ∧ c.toNat ≤ 122) := by
  simp [isalpha]

theorem tolower_toNat_of_upper {c : Char} (h1 : 65 ≤ c.toNat) (h2 : c.toNat ≤ 90) :
    (tolower c).toNat = c.toNat + 32 := by
  unfold tolower
  rw [if_pos (by simp only [Bool.and_eq_true, decide_eq_true_eq]; exact ⟨h1, h2⟩)]
  exact toNat_ofNat_small (by omega)

theorem tolower_of_lower {c : Char} (h1 : 97 ≤ c.toNat) : tolower c = c := by
  unfold tolower
  rw [if_neg (by simp only [Bool.and_eq_true, decide_eq_true_eq, not_and]; omega)]

theorem tolower_range {c : Char} (h : isalpha c = true) :
    97 ≤ (tolower c).toNat ∧ (tolower c).toNat ≤ 122 := by
  rcases isalpha_iff.mp h with ⟨h1, h2⟩ | ⟨h1, h2⟩
  · rw [tolower_toNat_of_upper h1 h2]; omega
  · rw [tolower_of_lower h1]; omega

theorem isspace_false_of_lower {c : Char} (h1 : 97 ≤ c.toNat) : isspace c = false := by
  unfold isspace
  have h : ∀ d : Char, d.toNat < 97 → (c == d) = false := by
    intro d hd
    rw [beq_eq_false_iff_ne]
    intro he
    rw [he] at h1
    omega
  rw [h ' ' (by decide), h '\t' (by decide), h '\n' (by decide), h '\x0b' (by decide),
    h '\x0c' (by decide), h '\r' (by decide)]
  rfl

theorem isalpha_of_lower {c : Char} (h1 : 97 ≤ c.toNat) (h2 : c.toNat ≤ 122) :
    isalpha c = true :=
  isalpha_iff.mpr (Or.inr ⟨h1, h2⟩)

/-! ### Facts about the in-place normalisation loops of `validate` -/

theorem dropWhile_eq_self_of {p : Char → Bool} :
    ∀ {l : List Char}, (∀ c ∈ l, p c = false) → l.dropWhile p = l
  | [], _ => rfl
  | c :: rest, h => by
    simp [List.dropWhile_cons, h c (by simp)]

theorem lowerUntilFail_true {l : List Char} (h : (lowerUntilFail l).1 = true) :
    (lowerUntilFail l).2 = l.map tolower ∧ ∀ c ∈ l, isalpha c = true := by
  induction l with
  | nil => exact ⟨rfl, by simp⟩
  | cons c rest ih =>
    by_cases hc : isalpha c = true
    · simp only [lowerUntilFail, hc, if_true] at h ⊢
      obtain ⟨h1, h2⟩ := ih h
      refine ⟨by simp [h1], ?_⟩
      intro d hd
      rcases List.mem_cons.mp hd with rfl | hdr
      · exact hc
      · exact h2 d hdr
    · simp [lowerUntilFail, hc] at h

theorem lowerUntilFail_fixed {l : List Char}
    (h : ∀ c ∈ l, isalpha c = true ∧ tolower c = c) :
    lowerUntilFail l = (true, l) := by
  induction l with
  | nil => rfl
  | cons c rest ih =>
    obtain ⟨h1, h2⟩ := h c (by simp)
    have ihr := ih (fun d hd => h d (by simp [hd]))
    simp [lowerUntilFail, h1, h2, ihr]

theorem validate_accept_aux {raw : List Char} (h : (validate raw).1 = true) :
    (validate raw).2 = (trimLeft (trimRight raw)).map tolower ∧
    (∀ c ∈ trimLeft (trimRight raw), isalpha c = true) ∧
    (trimLeft (trimRight raw)).length = 5 := by
  unfold validate at h ⊢
  by_cases hl : (trimLeft (trimRight raw)).length = 5
  · rw [if_pos hl] at h ⊢
    obtain ⟨h1, h2⟩ := lowerUntilFail_true h
    exact ⟨h1, h2, hl⟩
  · rw [if_neg hl] at h
    exact absurd h (by simp)

/-- C5 counterexample: `validate` does modify the caller's string.  On the
accepted input "EAGLE " the caller's string ends up trimmed and lowercased,
and on the rejected input "AB3DE" the caller's string ends up partially
lowercased. -/
theorem validate_purity_counterexample :
    (validate "EAGLE ".toList).2 ≠ "EAGLE ".toList ∧
    validate "AB3DE".toList = (false, "ab3DE".toList) := by decide

/-- C5 (amended): `validate` normalises the caller's string in place rather
than leaving it untouched: whenever it accepts, the final state of the
caller's string is the trimmed, lowercased form of the raw input, of length
exactly 5. -/
theorem validate_normalizes_in_place (raw : List Char) (h : (validate raw).1 = true) :
    (validate raw).2 = (trimLeft (trimRight raw)).map tolower ∧
    (validate raw).2.length = 5 := by
  obtain ⟨h1, _, h3⟩ := validate_accept_aux h
  exact ⟨h1, by rw [h1]; simp [h3]⟩

/-- C5 witness: the amended statement applied to the concrete raw input
"EAGLE ". -/
theorem validate_normalizes_witness :
    (validate "EAGLE ".toList).2 =
      (trimLeft (trimRight "EAGLE ".toList)).map tolower ∧
    (validate "EAGLE ".toList).2.length = 5 :=
  validate_normalizes_in_place ("EAGLE ".toList) (by decide)

/-- C9: normalisation is idempotent on accepted outputs.  When `validate`
accepts a raw string, running `validate` on the produced canonical word
accepts again and leaves the word unchanged. -/
theorem validate_idempotent (raw : List Char) (h : (validate raw).1 = true) :
    validate (validate raw).2 = (true, (validate raw).2) := by
  obtain ⟨h1, h2, h3⟩ := validate_accept_aux h
  have hrange : ∀ d ∈ (validate raw).2, 97 ≤ d.toNat ∧ d.toNat ≤ 122 := by
    intro d hd
    rw [h1] at hd
    obtain ⟨c, hc, rfl⟩ := List.mem_map.mp hd
    exact tolower_range (h2 c hc)
  have hnospace : ∀ d ∈ (validate raw).2, isspace d = false := fun d hd =>
    isspace_false_of_lower (hrange d hd).1
  have htr : trimRight (validate raw).2 = (validate raw).2 := by
    unfold trimRight
    rw [dropWhile_eq_self_of (fun d hd => hnospace d (List.mem_reverse.mp hd))]
    exact List.reverse_reverse _
  have htl : trimLeft (validate raw).2 = (validate raw).2 := by
    unfold trimLeft
    exact dropWhile_eq_self_of hnospace
  have hlen : (validate raw).2.length = 5 := by
    rw [h1, List.length_map]
    exact h3
  have hfix : lowerUntilFail (validate raw).2 = (true, (validate raw).2) := by
    refine lowerUntilFail_fixed ?_
    intro d hd
    exact ⟨isalpha_of_lower (hrange d hd).1 (hrange d hd).2,
      tolower_of_lower (hrange d hd).1⟩
  generalize hg : (validate raw).2 = r at htr htl hlen hfix ⊢
  simp only [validate]
  rw [htr, htl, if_pos hlen]
  exact hfix

/-- C9 witness: idempotence applied to the concrete accepted raw input
"EAGLE ". -/
theorem validate_idempotent_witness :
    validate (validate "EAGLE ".toList).2 = (true, (validate "EAGLE ".toList).2) :=
  validate_idempotent ("EAGLE ".toList) (by decide)

/-! ### The constraint evaluation of `solve` -/

theorem constraintFails_false_iff {w : Word} {c : constraint} (hwf : cwf w.length c) :
    constraintFails w c = false ↔ SatisfiedSpec w c := by
  obtain ⟨hp, _⟩ := hwf
  cases hk : c.kind
  case not_present =>
    simp [constraintFails, SatisfiedSpec, hk]
  case present =>
    by_cases hm : c.letter ∈ w
    · have hcont : w.contains c.letter = true := by simpa using hm
      simp [constraintFails, SatisfiedSpec, hk, hcont, hm, List.any_eq_false]
    · have hcont : w.contains c.letter = false := by simpa using hm
      simp [constraintFails, SatisfiedSpec, hk, hcont, hm]
  case perfect =>
    obtain ⟨p, hpos, _⟩ := hp hk
    simp [constraintFails, SatisfiedSpec, hk, hpos]

/-- C1: the constraint evaluation used by `solve` retains a word exactly when
every constraint in the list is satisfied in the sense of the specification
(ABSENT, PRESENT_ELSEWHERE, EXACT as stated by `SatisfiedSpec`), for
constraints whose positions respect the word-length invariant. -/
theorem solve_retains_iff_satisfied (cs : List constraint) (words : List Word) (w : Word)
    (hwf : ∀ c ∈ cs, cwf w.length c) :
    w ∈ solve cs words ↔ w ∈ words ∧ ∀ c ∈ cs, SatisfiedSpec w c := by
  unfold solve
  rw [List.mem_filter]
  refine and_congr_right fun _ => ?_
  rw [Bool.not_eq_true', List.any_eq_false]
  constructor
  · intro h c hc
    exact (constraintFails_false_iff (hwf c hc)).mp (Bool.eq_false_iff.mpr (h c hc))
  · intro h c hc
    exact Bool.eq_false_iff.mp ((constraintFails_false_iff (hwf c hc)).mpr (h c hc))

/-- C1 witness: the retention test applied to the concrete word "bezel" and
the concrete constraints PRESENT_ELSEWHERE('e', {0,2,4}) and EXACT('l', 4). -/
theorem solve_retains_witness :
    "bezel".toList ∈
      solve [⟨.present, 'e', none, [0, 2, 4]⟩, ⟨.perfect, 'l', some 4, []⟩]
        ["bezel".toList] := by
  refine (solve_retains_iff_satisfied _ _ _ ?_).mpr ⟨by decide, ?_⟩
  · intro c hc
    rcases List.mem_cons.mp hc with rfl | hc
    · exact ⟨fun h => absurd h (by decide), by decide⟩
    rcases List.mem_cons.mp hc with rfl | hc
    · exact ⟨fun _ => ⟨4, rfl, by decide⟩, by decide⟩
    · exact absurd hc (List.not_mem_nil c)
  · intro c hc
    rcases List.mem_cons.mp hc with rfl | hc
    · exact ⟨by decide, by decide⟩
    rcases List.mem_cons.mp hc with rfl | hc
    · exact ⟨4, rfl, by decide⟩
    · exact absurd hc (List.not_mem_nil c)

/-- C10: `solve` is an order-preserving sublist of its input: retained words
keep their relative order, no word is introduced, and every duplicate of a
word passing the constraints is retained. -/
theorem solve_order_preserving (cs : List constraint) (words : List Word)
    (_h1 : ∀ c ∈ cs, cwf 5 c) (_h2 : ∀ w ∈ words, w.length = 5) :
    (solve cs words).Sublist words ∧
    (∀ w ∈ solve cs words, w ∈ words) ∧
    (∀ w, (cs.any (fun c => constraintFails w c)) = false →
      (solve cs words).count w = words.count w) := by
  refine ⟨List.filter_sublist words, fun w hw => (List.filter_sublist words).subset hw, ?_⟩
  intro w hw
  unfold solve
  exact List.count_filter (by simp [hw])

/-- C10 witness: the structural guarantees of `solve` at a concrete input
with a duplicated retained word. -/
theorem solve_order_preserving_witness :
    (solve [⟨.not_present, 'q', none, []⟩] ["bezel".toList, "bezel".toList]).count
        "bezel".toList =
      (["bezel".toList, "bezel".toList] : List Word).count "bezel".toList :=
  (solve_order_preserving [⟨.not_present, 'q', none, []⟩]
      ["bezel".toList, "bezel".toList]
      (fun c hc => by
        rcases List.mem_cons.mp hc with rfl | hc
        · exact ⟨fun h => absurd h (by decide), by decide⟩
        · exact absurd hc (List.not_mem_nil c))
      (by decide)).2.2
    ("bezel".toList) (by decide)

/-- C4: constraint construction performs no range validation and constraint
evaluation can reach an out-of-range word access.  The checked reading of
the `solve` switch reports the out-of-range access (`none`) both for an
EXACT constraint at position 7 and a PRESENT_ELSEWHERE constraint excluding
position 9 on a 5-letter word, while the unchecked evaluation silently
computes a truth value for the EXACT case instead of failing fast. -/
theorem constraint_oob_unchecked :
    evalConstraintChecked "eagle".toList ⟨.perfect, 'l', some 7, []⟩ = none ∧
    evalConstraintChecked "eagle".toList ⟨.present, 'e', none, [9]⟩ = none ∧
    constraintFails "eagle".toList ⟨.perfect, 'l', some 7, []⟩ = true := by decide

/-- evalConstraintChecked agrees with the unchecked evaluation on
well-formed constraints: no out-of-range access happens, and the computed
value is the negation of the `fail` flag. -/
theorem evalConstraintChecked_of_cwf {w : Word} {c : constraint} (h : cwf w.length c) :
    evalConstraintChecked w c = some (!(constraintFails w c)) := by
  obtain ⟨hp, he⟩ := h
  cases hk : c.kind
  case not_present =>
    simp [evalConstraintChecked, constraintFails, hk]
  case present =>
    by_cases hm : c.letter ∈ w
    · simp [evalConstraintChecked, constraintFails, hk, hm]
      exact he
    · simp [evalConstraintChecked, constraintFails, hk, hm]
  case perfect =>
    obtain ⟨p, hpos, hlt⟩ := hp hk
    simp [evalConstraintChecked, constraintFails, hk, hpos, hlt]

/-! ### Adjacent deduplication -/

theorem dedupAdj_cons_cons_eq {α : Type} [DecidableEq α] (a b : α) (rest : List α)
    (h : a = b) : dedupAdj (a :: b :: rest) = dedupAdj (b :: rest) := by
  simp [dedupAdj, h]

theorem dedupAdj_cons_cons_ne {α : Type} [DecidableEq α] (a b : α) (rest : List α)
    (h : ¬a = b) : dedupAdj (a :: b :: rest) = a :: dedupAdj (b :: rest) := by
  simp [dedupAdj, h]

theorem dedupAdj_mem {α : Type} [DecidableEq α] :
    ∀ (l : List α) (x : α), x ∈ dedupAdj l ↔ x ∈ l
  | [], _ => Iff.rfl
  | [_], _ => Iff.rfl
  | a :: b :: rest, x => by
    by_cases hab : a = b
    · rw [dedupAdj_cons_cons_eq a b rest hab, dedupAdj_mem (b :: rest) x]
      subst hab
      simp
    · rw [dedupAdj_cons_cons_ne a b rest hab]
      simp [dedupAdj_mem (b :: rest) x]

theorem dedupAdj_pairwise {α : Type} [DecidableEq α] {le : α → α → Prop}
    (hanti : ∀ a b, le a b → le b a → a = b) :
    ∀ {l : List α}, l.Pairwise le → (dedupAdj l).Pairwise (fun a b => le a b ∧ a ≠ b)
  | [], _ => by simp [dedupAdj]
  | [a], _ => by simp [dedupAdj]
  | a :: b :: rest, h => by
    obtain ⟨ha, hb⟩ := List.pairwise_cons.mp h
    by_cases hab : a = b
    · rw [dedupAdj_cons_cons_eq a b rest hab]
      exact dedupAdj_pairwise hanti hb
    · rw [dedupAdj_cons_cons_ne a b rest hab]
      refine List.pairwise_cons.mpr ⟨?_, dedupAdj_pairwise hanti hb⟩
      intro x hx
      have hxmem : x ∈ b :: rest := (dedupAdj_mem _ _).mp hx
      refine ⟨ha x hxmem, ?_⟩
      intro he
      rcases List.mem_cons.mp hxmem with hxb | hxr
      · exact hab (he.trans hxb)
      · obtain ⟨hbr, _⟩ := List.pairwise_cons.mp hb
        exact hab (hanti a b (ha b (by simp)) (he ▸ hbr x hxr))

/-! ### The lexicographic order on words -/

theorem lexLt_asymm : ∀ {a b : List Char}, lexLt a b = true → lexLt b a = true → False
  | [], [], h1, _ => by simp [lexLt] at h1
  | [], _ :: _, _, h2 => by simp [lexLt] at h2
  | _ :: _, [], h1, _ => by simp [lexLt] at h1
  | a :: as, b :: bs, h1, h2 => by
    simp only [lexLt] at h1 h2
    by_cases hab : a < b
    · rw [if_neg (lt_asymm hab), if_pos hab] at h2
      exact absurd h2 (by simp)
    · by_cases hba : b < a
      · rw [if_neg hab, if_pos hba] at h1
        exact absurd h1 (by simp)
      · rw [if_neg hab, if_neg hba] at h1
        rw [if_neg hba, if_neg hab] at h2
        exact lexLt_asymm h1 h2

theorem lexLt_irrefl (a : List Char) : lexLt a a = false := by
  cases h : lexLt a a
  · rfl
  · exact (lexLt_asymm h h).elim

theorem lexLt_trichotomy : ∀ (a b : List Char), lexLt a b = true ∨ a = b ∨ lexLt b a = true
  | [], [] => Or.inr (Or.inl rfl)
  | [], _ :: _ => Or.inl rfl
  | _ :: _, [] => Or.inr (Or.inr rfl)
  | a :: as, b :: bs => by
    rcases lt_trichotomy a b with hab | hab | hab
    · left
      simp only [lexLt]
      rw [if_pos hab]
    · subst hab
      rcases lexLt_trichotomy as bs with h | h | h
      · left
        simp only [lexLt]
        rw [if_neg (lt_irrefl a), if_neg (lt_irrefl a)]
        exact h
      · exact Or.inr (Or.inl (by rw [h]))
      · right; right
        simp only [lexLt]
        rw [if_neg (lt_irrefl a), if_neg (lt_irrefl a)]
        exact h
    · right; right
      simp only [lexLt]
      rw [if_pos hab]

theorem lexLt_trans :
    ∀ {a b c : List Char}, lexLt a b = true → lexLt b c = true → lexLt a c = true
  | [], b, c, _, h2 => by
    cases c with
    | nil =>
      cases b with
      | nil => simp [lexLt] at h2
      | cons x xs => simp [lexLt] at h2
    | cons x xs => rfl
  | _ :: _, [], _, h1, _ => by simp [lexLt] at h1
  | a :: as, b :: bs, c, h1, h2 => by
    cases c with
    | nil => simp [lexLt] at h2
    | cons c0 cs =>
      simp only [lexLt] at h1 h2 ⊢
      by_cases hab : a < b
      · by_cases hbc : b < c0
        · rw [if_pos (lt_trans hab hbc)]
        · by_cases hcb : c0 < b
          · rw [if_neg hbc, if_pos hcb] at h2
            exact absurd h2 (by simp)
          · have : b = c0 := le_antisymm (le_of_not_lt hcb) (le_of_not_lt hbc)
            subst this
            rw [if_pos hab]
      · by_cases hba : b < a
        · rw [if_neg hab, if_pos hba] at h1
          exact absurd h1 (by simp)
        · have hab' : a = b := le_antisymm (le_of_not_lt hba) (le_of_not_lt hab)
          subst hab'
          rw [if_neg hab, if_neg hba] at h1
          by_cases hac : a < c0
          · rw [if_pos hac]
          · by_cases hca : c0 < a
            · rw [if_neg hac, if_pos hca] at h2
              exact absurd h2 (by simp)
            · rw [if_neg hac, if_neg hca] at h2 ⊢
              exact lexLt_trans h1 h2

theorem lexLt_false_of {a b : List Char} (h : lexLt a b = true) : lexLt b a = false := by
  cases h2 : lexLt b a
  · rfl
  · exact (lexLt_asymm h h2).elim

theorem lexLe_antisymm : ∀ (a b : Word), lexLe a b → lexLe b a → a = b := by
  intro a b h1 h2
  rcases lexLt_trichotomy a b with h | h | h
  · rw [lexLe, h] at h2
    exact absurd h2 (by simp)
  · exact h
  · rw [lexLe, h] at h1
    exact absurd h1 (by simp)

theorem lexLt_of_le_ne {a b : Word} (h1 : lexLe a b) (h2 : a ≠ b) : lexLt a b = true := by
  rcases lexLt_trichotomy a b with h | h | h
  · exact h
  · exact absurd h h2
  · rw [lexLe, h] at h1
    exact absurd h1 (by simp)

instance : IsTotal Word lexLe := by
  constructor
  intro a b
  rcases lexLt_trichotomy a b with h | h | h
  · exact Or.inl (lexLt_false_of h)
  · subst h
    exact Or.inl (lexLt_irrefl a)
  · exact Or.inr (lexLt_false_of h)

instance : IsTrans Word lexLe := by
  constructor
  intro a b c hab hbc
  unfold lexLe at hab hbc ⊢
  cases hca : lexLt c a
  · rfl
  · rcases lexLt_trichotomy c b with h | h | h
    · rw [h] at hbc
      exact absurd hbc (by simp)
    · subst h
      rw [hca] at hab
      exact absurd hab (by simp)
    · rw [lexLt_trans h hca] at hab
      exact absurd hab (by simp)

/-- C6: the final filtered candidate list is strictly increasing in the
lexicographic word order — hence duplicate-free and lexicographically sorted
— and holds exactly the words surviving the constraint and dictionary
stages. -/
theorem pipeline_dedup_sorted (words : List Word) (cs : List constraint) (dict : List Word) :
    (filter_pipeline words cs dict).Nodup ∧
    (filter_pipeline words cs dict).Pairwise (fun a b => lexLt a b = true) ∧
    (∀ w, w ∈ filter_pipeline words cs dict ↔
      w ∈ prune_dictionary (solve cs words) dict) := by
  have hsorted : (sortWords (prune_dictionary (solve cs words) dict)).Pairwise lexLe :=
    List.sorted_insertionSort lexLe _
  have hp := dedupAdj_pairwise lexLe_antisymm hsorted
  refine ⟨?_, ?_, ?_⟩
  · exact hp.imp (fun h => h.2)
  · exact hp.imp (fun h => lexLt_of_le_ne h.1 h.2)
  · intro w
    unfold filter_pipeline
    rw [dedupAdj_mem]
    exact (List.perm_insertionSort lexLe _).mem_iff

/-! ### Letter-frequency scoring -/

theorem foldl_add_weight :
    ∀ (l : List Char) (n : Int), l.foldl (fun v c => v + weight c) n = n + (l.map weight).sum
  | [], n => by simp
  | c :: rest, n => by
    rw [List.foldl_cons, foldl_add_weight rest (n + weight c)]
    simp [add_assoc]

theorem score_eq_sum_distinct (w : Word) : score w = w.toFinset.sum weight := by
  unfold score
  rw [foldl_add_weight, zero_add]
  have hsorted : (List.insertionSort (fun a b : Char => a ≤ b) w).Pairwise
      (fun a b : Char => a ≤ b) :=
    List.sorted_insertionSort _ w
  have hnd : (dedupAdj (List.insertionSort (fun a b : Char => a ≤ b) w)).Nodup :=
    (dedupAdj_pairwise (fun a b h1 h2 => le_antisymm h1 h2) hsorted).imp (fun h => h.2)
  rw [← List.sum_toFinset weight hnd]
  congr 1
  ext x
  simp only [List.mem_toFinset]
  rw [dedupAdj_mem]
  exact (List.perm_insertionSort _ w).mem_iff

/-- C7: a word's score is the sum of the frequency-table weights over its
set of distinct letters; consequently it is invariant under permutation and
repetition of the word's characters, in particular on "aabbc" and "abc". -/
theorem score_distinct_letters :
    (∀ w : Word, score w = w.toFinset.sum weight) ∧
    (∀ w₁ w₂ : Word, w₁.toFinset = w₂.toFinset → score w₁ = score w₂) ∧
    score "aabbc".toList = score "abc".toList := by
  refine ⟨score_eq_sum_distinct, fun w₁ w₂ h => ?_, by decide⟩
  rw [score_eq_sum_distinct, score_eq_sum_distinct, h]

/-- C7 witness: score invariance applied to the concrete words "stone" and
"notes", which have the same distinct-letter set. -/
theorem score_distinct_witness : score "stone".toList = score "notes".toList :=
  score_distinct_letters.2.1 ("stone".toList) ("notes".toList) (by decide)

/-! ### Monotonicity of the candidate pipeline -/

theorem length_pipeline_eq_card (l : List Word) :
    (dedupAdj (sortWords l)).length = l.toFinset.card := by
  have hsorted : (sortWords l).Pairwise lexLe := List.sorted_insertionSort lexLe l
  have hnd : (dedupAdj (sortWords l)).Nodup :=
    (dedupAdj_pairwise lexLe_antisymm hsorted).imp (fun h => h.2)
  rw [← List.toFinset_card_of_nodup hnd]
  congr 1
  ext x
  simp only [List.mem_toFinset]
  rw [dedupAdj_mem]
  exact (List.perm_insertionSort lexLe l).mem_iff

/-- C8: filtering is monotone in the constraint list: with the same corpus
and dictionary, a constrained run returns at most as many words as the
unconstrained run, and with an empty constraint list `solve` passes every
word through unchanged. -/
theorem filter_monotone_constraints (words : List Word) (cs : List constraint)
    (dict : List Word) (_h1 : ∀ c ∈ cs, cwf 5 c) (_h2 : ∀ w ∈ words, w.length = 5) :
    (filter_pipeline words cs dict).length ≤ (filter_pipeline words [] dict).length ∧
    solve [] words = words := by
  have hempty : solve [] words = words := by
    unfold solve
    simp
  refine ⟨?_, hempty⟩
  unfold filter_pipeline
  rw [length_pipeline_eq_card, length_pipeline_eq_card, hempty]
  apply Finset.card_le_card
  intro x hx
  simp only [List.mem_toFinset] at hx ⊢
  exact (List.Sublist.filter _ (List.filter_sublist words)).subset hx

/-- C8 witness: the monotone length inequality and identity of the empty
constraint list at a concrete corpus and dictionary. -/
theorem filter_monotone_witness :
    (filter_pipeline ["bezel".toList] [⟨.not_present, 'q', none, []⟩]
        ["bezel".toList]).length ≤
      (filter_pipeline ["bezel".toList] [] ["bezel".toList]).length ∧
    solve [] ["bezel".toList] = ["bezel".toList] :=
  filter_monotone_constraints ["bezel".toList] [⟨.not_present, 'q', none, []⟩]
    ["bezel".toList]
    (fun c hc => by
      rcases List.mem_cons.mp hc with rfl | hc
      · exact ⟨fun h => absurd h (by decide), by decide⟩
      · exact absurd hc (List.not_mem_nil c))
    (by decide)

/-! ### The best-overall starting word -/

theorem foldl_bestOp_mem : ∀ (l : List Word) (a : Word), l.foldl bestOp a ∈ a :: l
  | [], a => by simp
  | x :: l, a => by
    rw [List.foldl_cons]
    have h := foldl_bestOp_mem l (bestOp a x)
    rcases List.mem_cons.mp h with h | h
    · rw [h]
      unfold bestOp
      by_cases hx : score x < score a
      · rw [if_pos hx]; simp
      · rw [if_neg hx]; simp
    · simp [h]

theorem score_le_bestOp_left (a b : Word) : score a ≤ score (bestOp a b) := by
  unfold bestOp
  by_cases h : score b < score a
  · rw [if_pos h]
  · rw [if_neg h]
    exact le_of_not_lt h

theorem score_le_bestOp_right (a b : Word) : score b ≤ score (bestOp a b) := by
  unfold bestOp
  by_cases h : score b < score a
  · rw [if_pos h]
    exact le_of_lt h
  · rw [if_neg h]

theorem foldl_bestOp_max :
    ∀ (l : List Word) (a v : Word), v ∈ a :: l → score v ≤ score (l.foldl bestOp a)
  | [], a, v, hv => by
    rcases List.mem_cons.mp hv with rfl | hv
    · simp
    · exact absurd hv (List.not_mem_nil v)
  | x :: l, a, v, hv => by
    rw [List.foldl_cons]
    rcases List.mem_cons.mp hv with rfl | hv
    · exact le_trans (score_le_bestOp_left v x)
        (foldl_bestOp_max l (bestOp v x) (bestOp v x) (by simp))
    rcases List.mem_cons.mp hv with rfl | hv
    · exact le_trans (score_le_bestOp_right a v)
        (foldl_bestOp_max l (bestOp a v) (bestOp a v) (by simp))
    · exact foldl_bestOp_max l (bestOp a x) v (by simp [hv])

theorem foldl_bestOp_fixed :
    ∀ (l : List Word) (a : Word), (∀ v ∈ l, score v < score a) → l.foldl bestOp a = a
  | [], _, _ => rfl
  | x :: l, a, h => by
    rw [List.foldl_cons]
    have hx : bestOp a x = a := by
      unfold bestOp
      rw [if_pos (h x (by simp))]
    rw [hx]
    exact foldl_bestOp_fixed l a (fun v hv => h v (by simp [hv]))

/-- C2 counterexample: on the corpus ["bagel", "gable"], whose two words have
equal letter-frequency scores, `best_word` returns "gable", the later word —
not the first occurrence as claimed. -/
theorem best_word_tie_counterexample :
    best_word ["bagel".toList, "gable".toList] = "gable".toList ∧
    score "bagel".toList = score "gable".toList ∧
    "gable".toList ≠ "bagel".toList := by decide

/-- C2 (amended): `best_word` returns a word of the unfiltered corpus whose
letter-frequency score is maximal over the entire corpus, and when several
words share the maximal score, the one appearing last in corpus iteration
order is returned. -/
theorem best_word_spec :
    (∀ words : List Word, words ≠ [] →
      best_word words ∈ words ∧ ∀ v ∈ words, score v ≤ score (best_word words)) ∧
    (∀ (l₁ l₂ : List Word) (w : Word), (∀ v ∈ l₁, score v ≤ score w) →
      (∀ v ∈ l₂, score v < score w) → best_word (l₁ ++ w :: l₂) = w) := by
  constructor
  · intro words hne
    obtain ⟨w, ws, rfl⟩ := List.exists_cons_of_ne_nil hne
    exact ⟨foldl_bestOp_mem ws w, fun v hv => foldl_bestOp_max ws w v hv⟩
  · intro l₁ l₂ w h₁ h₂
    match l₁ with
    | [] =>
      exact foldl_bestOp_fixed l₂ w h₂
    | a :: t =>
      show (t ++ w :: l₂).foldl bestOp a = w
      rw [List.foldl_append, List.foldl_cons]
      have hX : t.foldl bestOp a ∈ a :: t := foldl_bestOp_mem t a
      have hXle : score (t.foldl bestOp a) ≤ score w := h₁ _ hX
      have hw : bestOp (t.foldl bestOp a) w = w := by
        generalize t.foldl bestOp a = X at hXle
        unfold bestOp
        rw [if_neg (not_lt.mpr hXle)]
      rw [hw]
      exact foldl_bestOp_fixed l₂ w h₂

/-- C2 witness: the amended tie-break and maximality statements applied to
the concrete corpus ["bagel", "gable"]. -/
theorem best_word_spec_witness :
    best_word ["bagel".toList, "gable".toList] = "gable".toList ∧
    best_word ["bagel".toList, "gable".toList] ∈ ["bagel".toList, "gable".toList] :=
  ⟨best_word_spec.2 ["bagel".toList] [] ("gable".toList) (by decide) (by decide),
   (best_word_spec.1 ["bagel".toList, "gable".toList] (by decide)).1⟩

/-! ### The letter-frequency ranking -/

/-- C3 counterexample: the sort contract of the letter-frequency ranking is
met by an output that reverses two equal-score words, so the ranking is not
a stable sort: with input ["gable", "bagel"] (equal scores), the output
["bagel", "gable"] satisfies the contract yet swaps the original relative
order. -/
theorem rank_stability_counterexample :
    RankedOutput ["gable".toList, "bagel".toList] ["bagel".toList, "gable".toList] ∧
    score "gable".toList = score "bagel".toList ∧
    ["bagel".toList, "gable".toList] ≠ ["gable".toList, "bagel".toList] :=
  ⟨⟨by decide, by decide⟩, by decide, by decide⟩

/-- C3 (amended): every output meeting the letter-frequency sort contract is
a permutation of the input (element counts are preserved, so no words are
added or dropped) and is non-increasing in score across the whole sequence;
the order among equal-score words is not specified. -/
theorem rank_perm_nonincreasing (inp out : List Word) (h : RankedOutput inp out) :
    (∀ w, out.count w = inp.count w) ∧
    ∀ (i j : Fin out.length), i ≤ j → score (out.get j) ≤ score (out.get i) := by
  refine ⟨fun w => h.1.countP_eq (fun x => x == w), ?_⟩
  intro i j hij
  rcases eq_or_lt_of_le hij with he | hlt
  · rw [he]
  · exact List.pairwise_iff_get.mp h.2 i j hlt

/-- C3 witness: count preservation applied to a concrete contract-satisfying
output. -/
theorem rank_perm_witness :
    (["bagel".toList, "gable".toList] : List Word).count "bagel".toList =
      (["gable".toList, "bagel".toList] : List Word).count "bagel".toList :=
  (rank_perm_nonincreasing ["gable".toList, "bagel".toList]
    ["bagel".toList, "gable".toList] ⟨by decide, by decide⟩).1 ("bagel".toList)
